import Mathlib

/-!
Verification of the entity-resolution and fetch-discipline core of a
read-only client for a metal-music database (source: metallum.py).
Python strings are modelled as `List Char` (sequences of code points),
stateful objects as explicit state passing, and fallible operations as
`Option` or `Except`.
-/

set_option maxHeartbeats 1000000

/-! ## Text parsers: genre splitting (split_genres) -/

/-- A genre-list delimiter character: the regex alternative `(?:,|;)`. -/
def isDelim (c : Char) : Bool := c = ',' || c = ';'

/-- The characters matched by the regex class `\s` (ASCII range). -/
def isPySpace (c : Char) : Bool :=
  c = ' ' || c = '\t' || c = '\n' || c = '\r' || c = '\x0b' || c = '\x0c'

/-- Success of the regex lookahead `[^()]*\)` at a position: true exactly when
the next parenthesis character in the remaining text is a closing one. -/
def nextParenClose : List Char → Bool
  | [] => false
  | c :: rest => if c = '(' then false else if c = ')' then true else nextParenClose rest

theorem dropWhile_length_le {α : Type} (p : α → Bool) :
    ∀ l : List α, (l.dropWhile p).length ≤ l.length := by
  intro l
  induction l with
  | nil => simp [List.dropWhile]
  | cons a l ih =>
    simp only [List.dropWhile]
    cases p a with
    | true => exact Nat.le_succ_of_le ih
    | false => simp

/-- Semantics of the regex split on `(?:,|;)\s*(?![^()]*\))` over code points: split at each
comma/semicolon unless the next parenthesis character after it is a closing
one; a split consumes the delimiter and the following whitespace run (the
`skip` mode models the `\s*` consumption).  Whitespace is never a
parenthesis, so the lookahead has the same outcome at every backtracking
position of `\s*`; this function is that semantics. -/
def sgo : Bool → List Char → List (List Char)
  | _, [] => [[]]
  | skip, c :: rest =>
    if skip && isPySpace c then sgo true rest
    else if isDelim c && !(nextParenClose rest) then [] :: sgo true rest
    else
      match sgo false rest with
      | [] => [[c]]
      | p :: ps => (c :: p) :: ps

def splitGenresL (l : List Char) : List (List Char) := sgo false l

/-- The whitespace-skip mode is exactly `dropWhile` of whitespace. -/
theorem sgo_true_eq : ∀ l : List Char, sgo true l = sgo false (l.dropWhile isPySpace) := by
  intro l
  induction l with
  | nil => rfl
  | cons c rest ih =>
    simp only [List.dropWhile]
    cases hsp : isPySpace c with
    | true => rw [sgo, if_pos (by simp [hsp])]; exact ih
    | false => rw [sgo, sgo]; simp [hsp]

theorem splitGenresL_nil : splitGenresL [] = [[]] := rfl

/-- The splitter satisfies the recursion of the regex semantics. -/
theorem splitGenresL_cons (c : Char) (rest : List Char) :
    splitGenresL (c :: rest) =
      if isDelim c && !(nextParenClose rest) then
        [] :: splitGenresL (rest.dropWhile isPySpace)
      else
        match splitGenresL rest with
        | [] => [[c]]
        | p :: ps => (c :: p) :: ps := by
  show sgo false (c :: rest) = _
  rw [sgo, if_neg (by simp), sgo_true_eq]
  rfl

/-- Function `split_genres` from the source, on `String`. -/
def split_genres (s : String) : List String :=
  (splitGenresL s.data).map fun l => ⟨l⟩

/-- Number of delimiters occurring at parenthesis depth 0 ("top level",
outside all parentheses), starting from depth `d`. -/
def topDelims : Nat → List Char → Nat
  | _, [] => 0
  | d, c :: rest =>
    if c = '(' then topDelims (d + 1) rest
    else if c = ')' then topDelims (d - 1) rest
    else if isDelim c && d == 0 then topDelims d rest + 1
    else topDelims d rest

/-- Balanced and non-nested parentheses, from state `d` (`true` = currently
inside an open parenthesis). `balNN false s` says every `(` in `s` is closed
before another opens, and every `)` closes a previously opened `(`. -/
def balNN : Bool → List Char → Bool
  | d, [] => !d
  | d, c :: rest =>
    if c = '(' then (if d then false else balNN true rest)
    else if c = ')' then (if d then balNN false rest else false)
    else balNN d rest

theorem isPySpace_not_special {c : Char} (h : isPySpace c = true) :
    ¬c = '(' ∧ ¬c = ')' ∧ isDelim c = false := by
  simp only [isPySpace, Bool.or_eq_true, decide_eq_true_eq] at h
  rcases h with ((((rfl | rfl) | rfl) | rfl) | rfl) | rfl <;>
    exact ⟨by decide, by decide, by decide⟩

theorem isDelim_not_paren {c : Char} (h : isDelim c = true) :
    ¬c = '(' ∧ ¬c = ')' := by
  simp only [isDelim, Bool.or_eq_true, decide_eq_true_eq] at h
  rcases h with rfl | rfl <;> exact ⟨by decide, by decide⟩

/-- Inside an unclosed parenthesis of a balanced non-nested string, the next
parenthesis character is the closing one (the lookahead succeeds). -/
theorem nextParenClose_of_inside :
    ∀ l : List Char, balNN true l = true → nextParenClose l = true := by
  intro l
  induction l with
  | nil => intro h; simp [balNN] at h
  | cons c rest ih =>
    intro h
    simp only [balNN] at h
    simp only [nextParenClose]
    by_cases hop : c = '('
    · rw [if_pos hop] at h; simp at h
    · rw [if_neg hop] at h
      by_cases hcl : c = ')'
      · rw [if_pos hcl]; simp [hcl]
      · rw [if_neg hcl] at h
        rw [if_neg hop, if_neg hcl]
        exact ih h

/-- At top level of a balanced non-nested string, the next parenthesis
character is never a closing one (the lookahead fails). -/
theorem nextParenClose_of_top :
    ∀ l : List Char, balNN false l = true → nextParenClose l = false := by
  intro l
  induction l with
  | nil => intro _; simp [nextParenClose]
  | cons c rest ih =>
    intro h
    simp only [balNN] at h
    simp only [nextParenClose]
    by_cases hop : c = '('
    · rw [if_pos hop]
    · rw [if_neg hop] at h
      by_cases hcl : c = ')'
      · rw [if_pos hcl] at h; simp at h
      · rw [if_neg hcl] at h
        rw [if_neg hop, if_neg hcl]
        exact ih h

theorem balNN_dropWhile_spaces :
    ∀ (l : List Char) (d : Bool), balNN d (l.dropWhile isPySpace) = balNN d l := by
  intro l
  induction l with
  | nil => intro d; rfl
  | cons c rest ih =>
    intro d
    simp only [List.dropWhile]
    cases hsp : isPySpace c with
    | false => rfl
    | true =>
      obtain ⟨h1, h2, _⟩ := isPySpace_not_special hsp
      simp only [balNN, if_neg h1, if_neg h2]
      exact ih d

theorem topDelims_dropWhile_spaces :
    ∀ (l : List Char) (n : Nat), topDelims n (l.dropWhile isPySpace) = topDelims n l := by
  intro l
  induction l with
  | nil => intro n; rfl
  | cons c rest ih =>
    intro n
    simp only [List.dropWhile]
    cases hsp : isPySpace c with
    | false => rfl
    | true =>
      obtain ⟨h1, h2, h3⟩ := isPySpace_not_special hsp
      simp only [topDelims, if_neg h1, if_neg h2, h3, Bool.false_and, Bool.false_eq_true,
        if_false]
      exact ih n

theorem splitGenresL_ne_nil : ∀ l : List Char, splitGenresL l ≠ [] := by
  intro l
  match l with
  | [] => simp [splitGenresL, sgo]
  | c :: rest =>
    rw [splitGenresL_cons]
    by_cases h : (isDelim c && !nextParenClose rest) = true
    · rw [if_pos h]; simp
    · rw [if_neg h]
      cases hr : splitGenresL rest <;> simp

/-- Main invariant of the genre splitter on balanced non-nested input,
tracking the parenthesis state `d` at the start of the remaining text:
the number of phrases is one more than the number of top-level delimiters;
the first phrase closes the pending parenthesis state, and every later
phrase is itself balanced and non-nested. -/
theorem splitGenresL_spec :
    ∀ (N : Nat) (l : List Char) (d : Bool), l.length ≤ N → balNN d l = true →
      (splitGenresL l).length = 1 + topDelims (cond d 1 0) l ∧
      balNN d (splitGenresL l).headI = true ∧
      ∀ p ∈ (splitGenresL l).tail, balNN false p = true := by
  intro N
  induction N with
  | zero =>
    intro l d hlen hbal
    rw [Nat.le_zero, List.length_eq_zero] at hlen
    subst hlen
    exact ⟨by simp [splitGenresL, sgo, topDelims], by simpa [splitGenresL] using hbal,
      by simp [splitGenresL, sgo]⟩
  | succ N ih =>
    intro l d hlen hbal
    match l with
    | [] =>
      exact ⟨by simp [splitGenresL, sgo, topDelims], by simpa [splitGenresL] using hbal,
        by simp [splitGenresL, sgo]⟩
    | c :: rest =>
      have hrlen : rest.length ≤ N := by simpa using hlen
      rw [splitGenresL_cons]
      by_cases hsplit : (isDelim c && !nextParenClose rest) = true
      · -- the regex splits here
        rw [if_pos hsplit]
        rw [Bool.and_eq_true, Bool.not_eq_true'] at hsplit
        obtain ⟨hdel, hnpc⟩ := hsplit
        obtain ⟨hop, hcl⟩ := isDelim_not_paren hdel
        simp only [balNN, if_neg hop, if_neg hcl] at hbal
        -- at depth 1 the lookahead would succeed, so we are at depth 0
        have hd : d = false := by
          cases d with
          | false => rfl
          | true => rw [nextParenClose_of_inside rest hbal] at hnpc; exact absurd hnpc (by simp)
        subst hd
        have hbal' : balNN false (rest.dropWhile isPySpace) = true := by
          rw [balNN_dropWhile_spaces]; exact hbal
        have hlen' : (rest.dropWhile isPySpace).length ≤ N :=
          le_trans (dropWhile_length_le isPySpace rest) hrlen
        obtain ⟨ihlen, ihhead, ihtail⟩ := ih (rest.dropWhile isPySpace) false hlen' hbal'
        refine ⟨?_, by simp [balNN], ?_⟩
        · have e1 : topDelims 0 (c :: rest) = topDelims 0 rest + 1 := by
            simp [topDelims, if_neg hop, if_neg hcl, hdel]
          have e2 : (splitGenresL (rest.dropWhile isPySpace)).length = 1 + topDelims 0 rest := by
            simpa [topDelims_dropWhile_spaces] using ihlen
          simp only [List.length_cons, e2, Bool.cond_false, e1]
          omega
        · intro p hp
          simp only [List.tail_cons] at hp
          obtain ⟨q, qs, hq⟩ := List.exists_cons_of_ne_nil
            (splitGenresL_ne_nil (rest.dropWhile isPySpace))
          rw [hq] at hp ihtail ihhead
          simp only [List.headI_cons] at ihhead
          rcases List.mem_cons.mp hp with rfl | hp
          · exact ihhead
          · exact ihtail p hp
      · -- no split: the character joins the current phrase
        rw [if_neg hsplit]
        obtain ⟨q, qs, hq⟩ := List.exists_cons_of_ne_nil (splitGenresL_ne_nil rest)
        rw [hq]
        by_cases hop : c = '('
        · -- an opening parenthesis: descend to depth 1
          subst hop
          have hd : d = false := by
            cases d with
            | false => rfl
            | true => simp [balNN] at hbal
          subst hd
          simp only [balNN, if_pos rfl] at hbal
          obtain ⟨ihlen, ihhead, ihtail⟩ := ih rest true hrlen hbal
          rw [hq] at ihlen ihhead ihtail
          refine ⟨?_, ?_, ?_⟩
          · simp only [List.length_cons] at ihlen ⊢
            simpa [topDelims] using ihlen
          · simpa [balNN] using ihhead
          · simpa using ihtail
        · by_cases hcl : c = ')'
          · -- a closing parenthesis: return to depth 0
            subst hcl
            have hd : d = true := by
              cases d with
              | true => rfl
              | false => simp [balNN] at hbal
            subst hd
            simp only [balNN, if_neg (by decide : ¬(')' : Char) = '('), if_pos rfl] at hbal
            obtain ⟨ihlen, ihhead, ihtail⟩ := ih rest false hrlen hbal
            rw [hq] at ihlen ihhead ihtail
            refine ⟨?_, ?_, ?_⟩
            · simp only [List.length_cons] at ihlen ⊢
              simpa [topDelims] using ihlen
            · simpa [balNN] using ihhead
            · simpa using ihtail
          · -- an ordinary character (or a delimiter inside parentheses)
            simp only [balNN, if_neg hop, if_neg hcl] at hbal
            obtain ⟨ihlen, ihhead, ihtail⟩ := ih rest d hrlen hbal
            rw [hq] at ihlen ihhead ihtail
            refine ⟨?_, ?_, ?_⟩
            · simp only [List.length_cons] at ihlen ⊢
              rw [ihlen]
              congr 1
              simp only [topDelims, if_neg hop, if_neg hcl]
              -- a delimiter here is only possible at depth 1
              by_cases hdel : isDelim c = true
              · have hd : d = true := by
                  cases d with
                  | true => rfl
                  | false =>
                    rw [Bool.and_eq_true, Bool.not_eq_true'] at hsplit
                    push_neg at hsplit
                    exact absurd (nextParenClose_of_top rest hbal) (by
                      intro hc; exact absurd (hsplit hdel) (by simp [hc]))
                subst hd
                simp
              · simp only [Bool.not_eq_true] at hdel
                simp [hdel]
            · simpa [balNN, if_neg hop, if_neg hcl] using ihhead
            · simpa using ihtail

/-- C2, counterexample: on the input `"(a, (b))"` — whose single comma sits
inside parentheses, hence zero top-level delimiters — the splitter returns
two phrases instead of one, and a returned phrase carries an unbalanced
parenthesis; so the claimed property does not hold for every input string. -/
theorem split_genres_claim_counterexample :
    ¬((splitGenresL ("(a, (b))").data).length = 1 + topDelims 0 ("(a, (b))").data ∧
      (splitGenresL ("(a, (b))").data).all (balNN false) = true) := by decide

/-- C2 (amended): for every input string whose parentheses are balanced and
non-nested, `split_genres` returns exactly `1 +` (number of top-level
comma/semicolon delimiters outside parentheses) phrases, no returned phrase
contains an unbalanced parenthesis, and in particular the claimed two-phrase
example splits as stated. -/
theorem split_genres_balanced (l : List Char) (h : balNN false l = true) :
    (splitGenresL l).length = 1 + topDelims 0 l ∧
    (splitGenresL l).all (balNN false) = true ∧
    split_genres "Heavy Metal/Hard Rock (early, later), Thrash Metal (mid)" =
      ["Heavy Metal/Hard Rock (early, later)", "Thrash Metal (mid)"] := by
  obtain ⟨hlen, hhead, htail⟩ := splitGenresL_spec l.length l false le_rfl h
  refine ⟨by simpa using hlen, ?_, by decide⟩
  rw [List.all_eq_true]
  intro p hp
  obtain ⟨q, qs, hq⟩ := List.exists_cons_of_ne_nil (splitGenresL_ne_nil l)
  rw [hq] at hp hhead htail
  simp only [List.headI_cons] at hhead
  simp only [List.tail_cons] at htail
  rcases List.mem_cons.mp hp with rfl | hp
  · exact hhead
  · exact htail p hp

theorem split_genres_balanced_witness :
    balNN false ("Thrash Metal (early), Hard Rock/Heavy/Thrash Metal (later)").data = true ∧
    ((splitGenresL ("Thrash Metal (early), Hard Rock/Heavy/Thrash Metal (later)").data).length =
        1 + topDelims 0 ("Thrash Metal (early), Hard Rock/Heavy/Thrash Metal (later)").data ∧
      (splitGenresL ("Thrash Metal (early), Hard Rock/Heavy/Thrash Metal (later)").data).all
        (balNN false) = true ∧
      split_genres "Heavy Metal/Hard Rock (early, later), Thrash Metal (mid)" =
        ["Heavy Metal/Hard Rock (early, later)", "Thrash Metal (mid)"]) :=
  ⟨by decide, split_genres_balanced _ (by decide)⟩

/-- Python `str.split(sep)` for a one-character separator, over code points. -/
def pySplit (sep : Char) : List Char → List (List Char)
  | [] => [[]]
  | c :: rest =>
    if c = sep then [] :: pySplit sep rest
    else
      match pySplit sep rest with
      | [] => [[c]]
      | p :: ps => (c :: p) :: ps

/-- Python `int(s)` for a string of decimal digits; `none` models the
`ValueError` raised on an empty or non-numeric string. -/
def pyInt (l : List Char) : Option Nat :=
  if l ≠ [] && l.all Char.isDigit then
    some (l.foldl (fun n c => n * 10 + (c.toNat - 48)) 0)
  else none

/-- Function `parse_duration` from the source: split on a colon; the last group is
seconds, the second-to-last (when there are at least two) is minutes, and the
first (only when there are exactly three) is hours. -/
def parseDurationL (s : List Char) : Option Nat := do
  let parts := pySplit ':' s
  let last ← parts.getLast?
  let sec ← pyInt last
  let sec ←
    if parts.length > 1 then do
      let g ← parts.get? (parts.length - 2)
      let m ← pyInt g
      pure (sec + m * 60)
    else pure sec
  if parts.length = 3 then do
    let g ← parts.get? 0
    let h ← pyInt g
    pure (sec + h * 3600)
  else pure sec

/-- Function `parse_duration` on `String`. -/
def parse_duration (s : String) : Option Nat := parseDurationL s.data

theorem pySplit_no_sep (sep : Char) :
    ∀ g : List Char, sep ∉ g → pySplit sep g = [g] := by
  intro g
  induction g with
  | nil => intro _; rfl
  | cons c rest ih =>
    intro h
    have hc : ¬c = sep := by rintro rfl; exact h (List.mem_cons_self _ _)
    have hrest : sep ∉ rest := fun hm => h (List.mem_cons_of_mem _ hm)
    rw [pySplit, if_neg hc, ih hrest]

theorem pySplit_sep_append (sep : Char) :
    ∀ g r : List Char, sep ∉ g → pySplit sep (g ++ sep :: r) = g :: pySplit sep r := by
  intro g
  induction g with
  | nil =>
    intro r _
    show pySplit sep (sep :: r) = [] :: pySplit sep r
    rw [pySplit, if_pos rfl]
  | cons c rest ih =>
    intro r h
    have hc : ¬c = sep := by rintro rfl; exact h (List.mem_cons_self _ _)
    have hrest : sep ∉ rest := fun hm => h (List.mem_cons_of_mem _ hm)
    show pySplit sep (c :: (rest ++ sep :: r)) = (c :: rest) :: pySplit sep r
    rw [pySplit, if_neg hc, ih r hrest]

theorem pyInt_all_digits {g : List Char} {v : Nat} (h : pyInt g = some v) :
    g.all Char.isDigit = true := by
  unfold pyInt at h
  by_cases hc : (g ≠ [] && g.all Char.isDigit) = true
  · rw [Bool.and_eq_true] at hc; exact hc.2
  · rw [if_neg hc] at h; exact absurd h (by simp)

theorem digits_no_colon {g : List Char} (h : g.all Char.isDigit = true) : ':' ∉ g := by
  intro hm
  rw [List.all_eq_true] at h
  exact absurd (h _ hm) (by decide)

/-- C8: for duration strings of shape `"SS"`, `"MM:SS"` or `"HH:MM:SS"` with
numeric groups, `parse_duration` returns the rightmost group as seconds, plus
the next-to-rightmost times 60 when present, plus the leftmost times 3600
when there are three groups; and the three claimed examples evaluate as
stated. -/
theorem parse_duration_correct (g1 g2 g3 : List Char) (hh mm ss : Nat)
    (h1 : pyInt g1 = some hh) (h2 : pyInt g2 = some mm) (h3 : pyInt g3 = some ss) :
    parseDurationL g3 = some ss ∧
    parseDurationL (g2 ++ ':' :: g3) = some (ss + mm * 60) ∧
    parseDurationL (g1 ++ ':' :: (g2 ++ ':' :: g3)) = some (ss + mm * 60 + hh * 3600) ∧
    parse_duration "00:01" = some 1 ∧
    parse_duration "03:33" = some 213 ∧
    parse_duration "01:14:00" = some 4440 := by
  have n1 := digits_no_colon (pyInt_all_digits h1)
  have n2 := digits_no_colon (pyInt_all_digits h2)
  have n3 := digits_no_colon (pyInt_all_digits h3)
  refine ⟨?_, ?_, ?_, by decide, by decide, by decide⟩
  · unfold parseDurationL
    rw [pySplit_no_sep ':' g3 n3]
    simp [h3]
  · unfold parseDurationL
    rw [pySplit_sep_append ':' g2 g3 n2, pySplit_no_sep ':' g3 n3]
    simp [h2, h3]
  · unfold parseDurationL
    rw [pySplit_sep_append ':' g1 _ n1, pySplit_sep_append ':' g2 g3 n2,
      pySplit_no_sep ':' g3 n3]
    simp [h1, h2, h3]

theorem parse_duration_correct_witness :
    (pyInt ("01").data = some 1 ∧ pyInt ("14").data = some 14 ∧
      pyInt ("00").data = some 0) ∧
    (parseDurationL ("00").data = some 0 ∧
      parseDurationL (("14").data ++ ':' :: ("00").data) = some (0 + 14 * 60) ∧
      parseDurationL (("01").data ++ ':' :: (("14").data ++ ':' :: ("00").data)) =
        some (0 + 14 * 60 + 1 * 3600) ∧
      parse_duration "00:01" = some 1 ∧
      parse_duration "03:33" = some 213 ∧
      parse_duration "01:14:00" = some 4440) :=
  ⟨⟨by decide, by decide, by decide⟩,
    parse_duration_correct ("01").data ("14").data ("00").data 1 14 0
      (by decide) (by decide) (by decide)⟩

/-! ## Multi-disc track numbering (TrackCollection.__init__) -/

/-- The disc / overall numbering loop of `TrackCollection.__init__`, over the
sequence of declared in-disc track numbers of the rows: the state is the
current disc counter, the next overall number, and the row index; a row whose
declared number is 1 (except the very first row) increments the disc counter
and is assigned the incremented value, and the overall number always advances
by one. -/
def trackAssignGo : List Nat → Nat → Nat → Nat → List (Nat × Nat)
  | [], _, _, _ => []
  | n :: rest, disc, overall, index =>
    if index ≠ 0 ∧ n = 1 then
      (disc + 1, overall) :: trackAssignGo rest (disc + 1) (overall + 1) (index + 1)
    else
      (disc, overall) :: trackAssignGo rest disc (overall + 1) (index + 1)

/-- The (disc number, overall number) pairs assigned to the rows of a release. -/
def trackAssign (rows : List Nat) : List (Nat × Nat) := trackAssignGo rows 1 1 0

theorem trackAssignGo_length :
    ∀ (rows : List Nat) (disc overall i : Nat),
      (trackAssignGo rows disc overall i).length = rows.length := by
  intro rows
  induction rows with
  | nil => intro _ _ _; rfl
  | cons n rest ih =>
    intro disc overall i
    rw [trackAssignGo]
    by_cases h : i ≠ 0 ∧ n = 1
    · rw [if_pos h]; simp [ih]
    · rw [if_neg h]; simp [ih]

theorem count1_cons (n : Nat) (l : List Nat) :
    (n :: l).count 1 = l.count 1 + (if n = 1 then 1 else 0) := by
  rw [List.count_cons]
  by_cases hn : n = 1
  · subst hn; simp
  · have h1 : ¬(1 = n) := fun hc => hn hc.symm
    simp [hn, h1]

/-- Closed form of the numbering loop from any row index other than 0:
the disc part adds the number of declared-1 rows seen so far, and the
overall part advances by exactly one per row. -/
theorem trackAssignGo_getD :
    ∀ (rest : List Nat) (disc overall i k : Nat), i ≠ 0 → k < rest.length →
      (trackAssignGo rest disc overall i).getD k (0, 0) =
        (disc + (rest.take (k + 1)).count 1, overall + k) := by
  intro rest
  induction rest with
  | nil => intro _ _ _ k _ hk; simp at hk
  | cons n rest ih =>
    intro disc overall i k hi hk
    rw [trackAssignGo]
    by_cases hn : n = 1
    · rw [if_pos ⟨hi, hn⟩]
      cases k with
      | zero =>
        rw [List.getD_cons_zero, List.take_succ_cons, List.take_zero, count1_cons]
        simp [hn]
      | succ k =>
        have hk' : k < rest.length := by simpa using hk
        rw [List.getD_cons_succ, ih (disc + 1) (overall + 1) (i + 1) k (by omega) hk',
          List.take_succ_cons, count1_cons]
        rw [if_pos hn, Prod.mk.injEq]
        constructor <;> omega
    · rw [if_neg (by tauto)]
      cases k with
      | zero =>
        rw [List.getD_cons_zero, List.take_succ_cons, List.take_zero, count1_cons]
        simp [hn]
      | succ k =>
        have hk' : k < rest.length := by simpa using hk
        rw [List.getD_cons_succ, ih disc (overall + 1) (i + 1) k (by omega) hk',
          List.take_succ_cons, count1_cons]
        rw [if_neg hn, Prod.mk.injEq]
        constructor <;> omega

theorem count_take_succ :
    ∀ (l : List Nat) (k : Nat), k < l.length →
      (l.take (k + 1)).count 1 =
        (l.take k).count 1 + (if l.getD k 0 = 1 then 1 else 0) := by
  intro l
  induction l with
  | nil => intro k hk; simp at hk
  | cons n rest ih =>
    intro k hk
    cases k with
    | zero =>
      rw [List.take_succ_cons, List.take_zero, count1_cons, List.getD_cons_zero]
      simp
    | succ k =>
      have hk' : k < rest.length := by simpa using hk
      rw [List.take_succ_cons, List.take_succ_cons, count1_cons, count1_cons,
        List.getD_cons_succ, ih k hk']
      omega

/-- C3: for every non-empty sequence of declared in-disc track numbers, the
numbering loop assigns the first row disc 1 and overall number 1, increments
the disc counter exactly on later rows whose declared number is 1, advances
the overall number by exactly 1 per row, and handles the claimed 12-row
two-disc example as stated. -/
theorem track_numbering_correct (rows : List Nat) (h : rows ≠ []) :
    (trackAssign rows).length = rows.length ∧
    (trackAssign rows).getD 0 (0, 0) = (1, 1) ∧
    (∀ k, k < rows.length → ((trackAssign rows).getD k (0, 0)).2 = k + 1) ∧
    (∀ k, k + 1 < rows.length →
      ((trackAssign rows).getD (k + 1) (0, 0)).1 =
        if rows.getD (k + 1) 0 = 1 then ((trackAssign rows).getD k (0, 0)).1 + 1
        else ((trackAssign rows).getD k (0, 0)).1) ∧
    trackAssign [1, 2, 3, 4, 5, 6, 7, 8, 1, 2, 3, 4] =
      [(1, 1), (1, 2), (1, 3), (1, 4), (1, 5), (1, 6), (1, 7), (1, 8),
        (2, 9), (2, 10), (2, 11), (2, 12)] := by
  obtain ⟨n, rest, rfl⟩ := List.exists_cons_of_ne_nil h
  have hgo : trackAssign (n :: rest) = (1, 1) :: trackAssignGo rest 1 2 1 := by
    show trackAssignGo (n :: rest) 1 1 0 = _
    rw [trackAssignGo, if_neg (by simp)]
  have hD : ∀ k, k ≤ rest.length →
      ((trackAssign (n :: rest)).getD k (0, 0)).1 = 1 + (rest.take k).count 1 := by
    intro k hk
    cases k with
    | zero => rw [hgo]; simp
    | succ j =>
      rw [hgo, List.getD_cons_succ,
        trackAssignGo_getD rest 1 2 1 j one_ne_zero (by omega)]
  refine ⟨?_, ?_, ?_, ?_, by decide⟩
  · rw [hgo]
    simp [trackAssignGo_length]
  · rw [hgo]; rfl
  · intro k hk
    cases k with
    | zero => rw [hgo]; rfl
    | succ j =>
      rw [hgo, List.getD_cons_succ,
        trackAssignGo_getD rest 1 2 1 j one_ne_zero (by simpa using hk)]
      omega
  · intro k hk
    have hk' : k < rest.length := by simpa using hk
    rw [hD (k + 1) (by omega), hD k (by omega), List.getD_cons_succ,
      count_take_succ rest k hk']
    by_cases h1 : rest.getD k 0 = 1
    · rw [if_pos h1, if_pos h1]; omega
    · rw [if_neg h1, if_neg h1]; omega

theorem track_numbering_correct_witness :
    (([1, 2, 1] : List Nat) ≠ []) ∧
    ((trackAssign [1, 2, 1]).length = ([1, 2, 1] : List Nat).length ∧
      (trackAssign [1, 2, 1]).getD 0 (0, 0) = (1, 1) ∧
      (∀ k, k < ([1, 2, 1] : List Nat).length →
        ((trackAssign [1, 2, 1]).getD k (0, 0)).2 = k + 1) ∧
      (∀ k, k + 1 < ([1, 2, 1] : List Nat).length →
        ((trackAssign [1, 2, 1]).getD (k + 1) (0, 0)).1 =
          if ([1, 2, 1] : List Nat).getD (k + 1) 0 = 1 then
            ((trackAssign [1, 2, 1]).getD k (0, 0)).1 + 1
          else ((trackAssign [1, 2, 1]).getD k (0, 0)).1) ∧
      trackAssign [1, 2, 3, 4, 5, 6, 7, 8, 1, 2, 3, 4] =
        [(1, 1), (1, 2), (1, 3), (1, 4), (1, 5), (1, 6), (1, 7), (1, 8),
          (2, 9), (2, 10), (2, 11), (2, 12)]) :=
  ⟨by decide, track_numbering_correct [1, 2, 1] (by decide)⟩

/-! ## Collection filtering (MetallumCollection.search) -/

/-- Python `str.lower()` (ASCII case folding), as used by the search filter. -/
def pyLower (s : String) : String := ⟨s.data.map Char.toLower⟩

/-- One keyword constraint `field=value` holds of an item when the supplied
value case-insensitively equals the value of the item at that field; the code
removes an item exactly when `kwargs[arg].lower() != getattr(item, arg).lower()`. -/
def constraintHolds {α φ : Type} (get : α → φ → String) (c : φ × String) (it : α) : Bool :=
  pyLower c.2 == pyLower (get it c.1)

/-- Python `list.remove(x)`: removes the first occurrence of `x`. -/
def removeFirst {α : Type} [DecidableEq α] : List α → α → List α
  | [], _ => []
  | x :: xs, a => if x = a then xs else x :: removeFirst xs a

/-- The inner loop of `search`: iterate over a snapshot of the collection
(`for item in collection[:]`), removing from the live list every item that
fails the current constraint. -/
def passLoop {α : Type} [DecidableEq α] (p : α → Bool) : List α → List α → List α
  | [], live => live
  | x :: xs, live =>
    if p x then passLoop p xs live else passLoop p xs (removeFirst live x)

/-- Method `MetallumCollection.search` (pure value form): start from a copy of the
collection and narrow it by one pass per keyword constraint. -/
def collectionSearch {α φ : Type} [DecidableEq α] (get : α → φ → String)
    (items : List α) (cs : List (φ × String)) : List α :=
  cs.foldl (fun coll c => passLoop (constraintHolds get c) coll coll) items

theorem removeFirst_append_of_not_mem {α : Type} [DecidableEq α] (x : α) :
    ∀ (K xs : List α), x ∉ K → removeFirst (K ++ x :: xs) x = K ++ xs := by
  intro K
  induction K with
  | nil =>
    intro xs _
    show removeFirst (x :: xs) x = xs
    rw [removeFirst, if_pos rfl]
  | cons a K ih =>
    intro xs h
    have ha : ¬a = x := by rintro rfl; exact h (List.mem_cons_self _ _)
    have hK : x ∉ K := fun hm => h (List.mem_cons_of_mem _ hm)
    show removeFirst (a :: (K ++ x :: xs)) x = a :: (K ++ xs)
    rw [removeFirst, if_neg ha, ih xs hK]

/-- Narrowing by removals over a snapshot equals a single `filter`: the kept
prefix `K` consists of items that pass, so a failing item is never equal to a
kept one and each removal hits the copy of the failing item itself. -/
theorem passLoop_eq_filter {α : Type} [DecidableEq α] (p : α → Bool) :
    ∀ (xs K : List α), (∀ a ∈ K, p a = true) →
      passLoop p xs (K ++ xs) = K ++ xs.filter p := by
  intro xs
  induction xs with
  | nil => intro K _; simp [passLoop]
  | cons x xs ih =>
    intro K hK
    by_cases hp : p x = true
    · rw [passLoop, if_pos hp]
      have hKx : K ++ x :: xs = (K ++ [x]) ++ xs := by simp
      rw [hKx, ih (K ++ [x]) ?_]
      · simp [List.filter_cons, hp]
      · intro a ha
        rcases List.mem_append.mp ha with h | h
        · exact hK a h
        · rw [List.mem_singleton] at h; subst h; exact hp
    · rw [passLoop, if_neg hp]
      have hx : x ∉ K := fun hm => hp (hK x hm)
      rw [removeFirst_append_of_not_mem x K xs hx, ih K hK]
      simp [List.filter_cons, hp]

theorem passLoop_self_eq_filter {α : Type} [DecidableEq α] (p : α → Bool)
    (items : List α) : passLoop p items items = items.filter p := by
  simpa using passLoop_eq_filter p items [] (by simp)

theorem filter_comm_and {α : Type} (p q : α → Bool) :
    ∀ l : List α, (l.filter p).filter q = l.filter fun a => p a && q a := by
  intro l
  induction l with
  | nil => rfl
  | cons x xs ih =>
    simp only [List.filter_cons]
    cases hp : p x <;> cases hq : q x <;> simp [List.filter_cons, hp, hq, ih]

/-- The successive narrowing passes compute the one-shot conjunctive filter. -/
theorem collectionSearch_eq_filter {α φ : Type} [DecidableEq α] (get : α → φ → String) :
    ∀ (cs : List (φ × String)) (items : List α),
      collectionSearch get items cs =
        items.filter fun it => cs.all fun c => constraintHolds get c it := by
  intro cs
  induction cs with
  | nil =>
    intro items
    simp [collectionSearch]
  | cons c cs ih =>
    intro items
    have hstep : collectionSearch get items (c :: cs) =
        collectionSearch get (passLoop (constraintHolds get c) items items) cs := rfl
    rw [hstep, ih, passLoop_self_eq_filter, filter_comm_and]
    congr 1

/-- C4: the `search` method of a collection returns exactly the order-preserving
subsequence of items whose value at every queried field case-insensitively
equals the supplied value — the successive narrowing passes of the
implementation equal one conjunctive filter — and filtering on two fields
equals filtering on the first and then filtering that result on the second. -/
theorem collection_search_filter_correct {α φ : Type} [DecidableEq α]
    (get : α → φ → String) (items : List α) (cs : List (φ × String))
    (c1 c2 : φ × String) :
    collectionSearch get items cs =
      items.filter (fun it => cs.all fun c => constraintHolds get c it) ∧
    collectionSearch get items [c1, c2] =
      collectionSearch get (collectionSearch get items [c1]) [c2] := by
  refine ⟨collectionSearch_eq_filter get cs items, ?_⟩
  rw [collectionSearch_eq_filter get [c1, c2] items,
    collectionSearch_eq_filter get [c2] (collectionSearch get items [c1]),
    collectionSearch_eq_filter get [c1] items, filter_comm_and]
  congr 1
  funext it
  simp [List.all_cons]

theorem collection_search_filter_correct_witness :
    collectionSearch (fun (s : String) (_ : Nat) => s)
        ["Ride the Lightning", "master of puppets", "Master of Puppets"]
        [(0, "Master Of Puppets")] = ["master of puppets", "Master of Puppets"] ∧
    (collectionSearch (fun (s : String) (_ : Nat) => s)
        ["Ride the Lightning", "master of puppets", "Master of Puppets"]
        [(0, "Master Of Puppets")] =
      List.filter
        (fun it => List.all [(0, "Master Of Puppets")] fun c =>
          constraintHolds (fun (s : String) (_ : Nat) => s) c it)
        ["Ride the Lightning", "master of puppets", "Master of Puppets"] ∧
    collectionSearch (fun (s : String) (_ : Nat) => s)
        ["Ride the Lightning", "master of puppets", "Master of Puppets"]
        [(0, "Master Of Puppets"), (1, "master of puppets")] =
      collectionSearch (fun (s : String) (_ : Nat) => s)
        (collectionSearch (fun (s : String) (_ : Nat) => s)
          ["Ride the Lightning", "master of puppets", "Master of Puppets"]
          [(0, "Master Of Puppets")])
        [(1, "master of puppets")]) :=
  ⟨by decide,
    collection_search_filter_correct (fun (s : String) (_ : Nat) => s)
      ["Ride the Lightning", "master of puppets", "Master of Puppets"]
      [(0, "Master Of Puppets")] (0, "Master Of Puppets") (1, "master of puppets")⟩

/-! ## Frame property of search (the receiver is never mutated) -/

/-- A store of list objects; an address is an index into the store. Models
the Python heap as far as the `search` method touches it. -/
def lookupL {α : Type} (σ : List (List α)) (i : Nat) : List α := σ.getD i []

def updateL {α : Type} (σ : List (List α)) (i : Nat) (v : List α) : List (List α) :=
  σ.set i v

/-- Method `MetallumCollection.search` with the receiver and its copy as distinct
store objects: `collection = self[:]` allocates a fresh list at address
`σ.length`; each narrowing pass rebinds only that fresh list (every
`collection.remove(item)` of the source mutates the copy, never `self`);
the method returns the final store and the address of the result. -/
def searchHeap {α φ : Type} [DecidableEq α] (get : α → φ → String)
    (σ : List (List α)) (self : Nat) (cs : List (φ × String)) :
    List (List α) × Nat :=
  let coll := σ.length
  let σ1 := σ ++ [lookupL σ self]
  let σ2 := cs.foldl
    (fun σc c =>
      updateL σc coll (passLoop (constraintHolds get c) (lookupL σc coll) (lookupL σc coll)))
    σ1
  (σ2, coll)

theorem lookup_update_ne {α : Type} :
    ∀ (σ : List (List α)) (i j : Nat) (v : List α), i ≠ j →
      lookupL (updateL σ j v) i = lookupL σ i := by
  intro σ
  induction σ with
  | nil => intro i j v _; rfl
  | cons a σ ih =>
    intro i j v hij
    cases j with
    | zero =>
      cases i with
      | zero => exact absurd rfl hij
      | succ i => rfl
    | succ j =>
      cases i with
      | zero => rfl
      | succ i =>
        show lookupL (a :: σ.set j v) (i + 1) = lookupL (a :: σ) (i + 1)
        show (a :: σ.set j v).getD (i + 1) [] = (a :: σ).getD (i + 1) []
        rw [List.getD_cons_succ, List.getD_cons_succ]
        exact ih i j v fun hc => hij (by rw [hc])

theorem lookup_append_singleton {α : Type} :
    ∀ (σ : List (List α)) (v : List α), lookupL (σ ++ [v]) σ.length = v := by
  intro σ v
  induction σ with
  | nil => rfl
  | cons a σ ih => exact ih

/-- A fold of updates at one address leaves every other address unchanged. -/
theorem foldl_update_frame {α β : Type} (g : List (List α) → β → List α) (j i : Nat)
    (hij : i ≠ j) :
    ∀ (cs : List β) (σ : List (List α)),
      lookupL (cs.foldl (fun σc c => updateL σc j (g σc c)) σ) i = lookupL σ i := by
  intro cs
  induction cs with
  | nil => intro σ; rfl
  | cons c cs ih =>
    intro σ
    rw [List.foldl_cons, ih]
    exact lookup_update_ne σ i j (g σ c) hij

/-- C10: `search` never mutates the receiver — the element
sequence of the receiver is unchanged by the call even when constraints eliminate items,
because removals act on a freshly allocated copy (whose address differs from
that of the receiver) — and `search` with no constraints returns a copy
whose element sequence equals that of the receiver. -/
theorem search_frame_correct {α φ : Type} [DecidableEq α] (get : α → φ → String)
    (σ : List (List α)) (self : Nat) (cs : List (φ × String))
    (h : self < σ.length) :
    lookupL (searchHeap get σ self cs).1 self = lookupL σ self ∧
    (searchHeap get σ self cs).2 ≠ self ∧
    lookupL (searchHeap get σ self []).1 (searchHeap get σ self []).2 =
      lookupL σ self := by
  have hne : self ≠ σ.length := by omega
  refine ⟨?_, by simp [searchHeap]; omega, ?_⟩
  · show lookupL (cs.foldl _ (σ ++ [lookupL σ self])) self = lookupL σ self
    rw [foldl_update_frame _ σ.length self hne cs (σ ++ [lookupL σ self])]
    show (σ ++ [lookupL σ self]).getD self [] = σ.getD self []
    rw [List.getD_append _ _ [] self h]
  · show lookupL (σ ++ [lookupL σ self]) σ.length = lookupL σ self
    exact lookup_append_singleton σ (lookupL σ self)

theorem search_frame_correct_witness :
    (0 < ([["ab", "cd"]] : List (List String)).length) ∧
    (lookupL (searchHeap (fun (s : String) (_ : Nat) => s) [["ab", "cd"]] 0
        [(0, "AB")]).1 0 = lookupL [["ab", "cd"]] 0 ∧
      (searchHeap (fun (s : String) (_ : Nat) => s) [["ab", "cd"]] 0
        [(0, "AB")]).2 ≠ 0 ∧
      lookupL (searchHeap (fun (s : String) (_ : Nat) => s) [["ab", "cd"]] 0 []).1
          (searchHeap (fun (s : String) (_ : Nat) => s) [["ab", "cd"]] 0 []).2 =
        lookupL [["ab", "cd"]] 0) :=
  ⟨by decide,
    search_frame_correct (fun (s : String) (_ : Nat) => s) [["ab", "cd"]] 0
      [(0, "AB")] (by decide)⟩

/-! ## Lazy album escalation (AlbumWrapper.__getattr__) -/

/-- The attributes of an album as exposed by `Album`; the Partial form
(`LazyAlbum`, parsed from a listing row) provides only the first five. -/
inductive AField
  | aid | aurl | title | atype | year
  | bands | added | modified | duration | date | label | score | reviewCount | cover
deriving DecidableEq

/-- Test `hasattr(self._album, name)` when the held `_album` is a `LazyAlbum`. -/
def lazyProvides : AField → Bool
  | .aid | .aurl | .title | .atype | .year => true
  | _ => false

/-- The representation held by an `AlbumWrapper`: `lazy` wraps the parsed
listing row, `full` wraps the dedicated fetched page. -/
inductive AlbumRep (Row Page : Type) where
  | lazy (row : Row)
  | full (page : Page)
deriving DecidableEq

/-- Method `AlbumWrapper.__getattr__`: when the held representation provides the
attribute, read it there with no fetch; otherwise construct the Full
representation by fetching the dedicated album page
(`self._album = Album(self._album.url)`) and delegate the access to it.
Returns the representation held afterwards, the outcome of the access, and
the number of escalation fetches performed; the rebinding of `self._album`
happens only if the fetch succeeds. -/
def wrapperGetattr {Row Page V E : Type} (lazyGet : Row → AField → V)
    (fullGet : Page → AField → V) (fetch : Row → Except E Page)
    (st : AlbumRep Row Page) (f : AField) :
    AlbumRep Row Page × Except E V × Nat :=
  match st with
  | .full p => (.full p, .ok (fullGet p f), 0)
  | .lazy r =>
    if lazyProvides f then (.lazy r, .ok (lazyGet r f), 0)
    else
      match fetch r with
      | .ok p => (.full p, .ok (fullGet p f), 1)
      | .error e => (.lazy r, .error e, 1)

/-- A sequence of attribute accesses on one wrapper, with the total number of
escalation fetches it performs. -/
def runAccesses {Row Page V E : Type} (lazyGet : Row → AField → V)
    (fullGet : Page → AField → V) (fetch : Row → Except E Page) :
    AlbumRep Row Page → List AField → AlbumRep Row Page × Nat
  | st, [] => (st, 0)
  | st, f :: fs =>
    let step := wrapperGetattr lazyGet fullGet fetch st f
    let rest := runAccesses lazyGet fullGet fetch step.1 fs
    (rest.1, step.2.2 + rest.2)

theorem runAccesses_full {Row Page V E : Type} (lazyGet : Row → AField → V)
    (fullGet : Page → AField → V) (fetch : Row → Except E Page) (p : Page) :
    ∀ fs : List AField,
      runAccesses lazyGet fullGet fetch (.full p) fs = (.full p, 0) := by
  intro fs
  induction fs with
  | nil => rfl
  | cons f fs ih => simp [runAccesses, wrapperGetattr, ih]

theorem runAccesses_lazy_cheap {Row Page V E : Type} (lazyGet : Row → AField → V)
    (fullGet : Page → AField → V) (fetch : Row → Except E Page) (r : Row) :
    ∀ fs : List AField, (∀ f ∈ fs, lazyProvides f = true) →
      runAccesses lazyGet fullGet fetch (.lazy r) fs = (.lazy r, 0) := by
  intro fs
  induction fs with
  | nil => intro _; rfl
  | cons f fs ih =>
    intro h
    have hf : lazyProvides f = true := h f (List.mem_cons_self _ _)
    have hfs : ∀ g ∈ fs, lazyProvides g = true :=
      fun g hg => h g (List.mem_cons_of_mem _ hg)
    simp [runAccesses, wrapperGetattr, hf, ih hfs]

theorem runAccesses_append {Row Page V E : Type} (lazyGet : Row → AField → V)
    (fullGet : Page → AField → V) (fetch : Row → Except E Page) :
    ∀ (xs ys : List AField) (st : AlbumRep Row Page),
      runAccesses lazyGet fullGet fetch st (xs ++ ys) =
        ((runAccesses lazyGet fullGet fetch
            (runAccesses lazyGet fullGet fetch st xs).1 ys).1,
          (runAccesses lazyGet fullGet fetch st xs).2 +
            (runAccesses lazyGet fullGet fetch
              (runAccesses lazyGet fullGet fetch st xs).1 ys).2) := by
  intro xs
  induction xs with
  | nil => intro ys st; simp [runAccesses]
  | cons x xs ih =>
    intro ys st
    simp [runAccesses, ih]
    omega

/-- On a successful fetch the whole-run fetch count of a Partial wrapper
never exceeds one: the first escalation moves to the Full form, after which
no access fetches again. -/
theorem runAccesses_lazy_le_one {Row Page V E : Type} (lazyGet : Row → AField → V)
    (fullGet : Page → AField → V) (fetch : Row → Except E Page) (r : Row) (p : Page)
    (hfetch : fetch r = .ok p) :
    ∀ fs : List AField, (runAccesses lazyGet fullGet fetch (.lazy r) fs).2 ≤ 1 := by
  intro fs
  induction fs with
  | nil => simp [runAccesses]
  | cons f fs ih =>
    by_cases hf : lazyProvides f = true
    · simpa [runAccesses, wrapperGetattr, hf] using ih
    · have hf' : lazyProvides f = false := by simpa using hf
      simp [runAccesses, wrapperGetattr, hf', hfetch, runAccesses_full]

/-- C1: for a wrapper holding the Partial (listing-row) representation,
accessing only Partial-provided fields performs no fetch and keeps the
Partial form; the first access of a Full-only field performs exactly one
escalation fetch and replaces the held representation with the Full one;
from the Full form every subsequent access performs zero fetches and the
representation never reverts; the whole combined access sequence performs
exactly one fetch, and any access sequence at most one. -/
theorem lazy_escalation_correct {Row Page V E : Type} (lazyGet : Row → AField → V)
    (fullGet : Page → AField → V) (fetch : Row → Except E Page) (r : Row) (p : Page)
    (hfetch : fetch r = .ok p) (fs : List AField)
    (hfs : ∀ f ∈ fs, lazyProvides f = true) (g : AField)
    (hg : lazyProvides g = false) (more any : List AField) :
    runAccesses lazyGet fullGet fetch (.lazy r) fs = (.lazy r, 0) ∧
    wrapperGetattr lazyGet fullGet fetch (.lazy r) g =
      (.full p, .ok (fullGet p g), 1) ∧
    runAccesses lazyGet fullGet fetch (.full p) more = (.full p, 0) ∧
    runAccesses lazyGet fullGet fetch (.lazy r) (fs ++ g :: more) = (.full p, 1) ∧
    (runAccesses lazyGet fullGet fetch (.lazy r) any).2 ≤ 1 := by
  have hstep : wrapperGetattr lazyGet fullGet fetch (.lazy r) g =
      (.full p, .ok (fullGet p g), 1) := by
    simp [wrapperGetattr, hg, hfetch]
  refine ⟨runAccesses_lazy_cheap lazyGet fullGet fetch r fs hfs, hstep, ?_, ?_, ?_⟩
  · exact runAccesses_full lazyGet fullGet fetch p more
  · rw [runAccesses_append, runAccesses_lazy_cheap lazyGet fullGet fetch r fs hfs]
    simp [runAccesses, hstep, runAccesses_full]
  · exact runAccesses_lazy_le_one lazyGet fullGet fetch r p hfetch any

theorem lazy_escalation_correct_witness :
    ((fun _ : Nat => Except.ok (ε := Nat) 5) 3 = Except.ok 5 ∧
      (∀ f ∈ [AField.aid, AField.title], lazyProvides f = true) ∧
      lazyProvides AField.label = false) ∧
    (runAccesses (fun _ _ => 0) (fun _ _ => 1) (fun _ : Nat => Except.ok (ε := Nat) 5)
        (.lazy 3) [AField.aid, AField.title] = (.lazy 3, 0) ∧
      wrapperGetattr (fun _ _ => 0) (fun _ _ => 1) (fun _ : Nat => Except.ok (ε := Nat) 5)
        (.lazy 3) AField.label = (.full 5, .ok 1, 1) ∧
      runAccesses (fun _ _ => 0) (fun _ _ => 1) (fun _ : Nat => Except.ok (ε := Nat) 5)
        (.full 5) [AField.date, AField.score] = (.full 5, 0) ∧
      runAccesses (fun _ _ => 0) (fun _ _ => 1) (fun _ : Nat => Except.ok (ε := Nat) 5)
        (.lazy 3) ([AField.aid, AField.title] ++ AField.label :: [AField.date, AField.score]) =
        (.full 5, 1) ∧
      (runAccesses (fun _ _ => 0) (fun _ _ => 1) (fun _ : Nat => Except.ok (ε := Nat) 5)
        (.lazy 3) [AField.label, AField.cover]).2 ≤ 1) :=
  ⟨⟨rfl, by decide, rfl⟩,
    lazy_escalation_correct (fun _ _ => 0) (fun _ _ => 1)
      (fun _ : Nat => Except.ok (ε := Nat) 5) 3 5 rfl [AField.aid, AField.title]
      (by decide) AField.label rfl [AField.date, AField.score]
      [AField.label, AField.cover]⟩

/-- C9: when the held representation is Partial and the escalation fetch
fails, the wrapper still holds the Partial representation afterwards and the
triggering field access fails with the underlying fetch error. -/
theorem escalation_failure_keeps_lazy {Row Page V E : Type}
    (lazyGet : Row → AField → V) (fullGet : Page → AField → V)
    (fetch : Row → Except E Page) (r : Row) (e : E) (g : AField)
    (hfetch : fetch r = .error e) (hg : lazyProvides g = false) :
    wrapperGetattr lazyGet fullGet fetch (.lazy r) g = (.lazy r, .error e, 1) := by
  simp [wrapperGetattr, hg, hfetch]

theorem escalation_failure_keeps_lazy_witness :
    ((fun _ : Nat => Except.error (α := Nat) 9) 3 = Except.error 9 ∧
      lazyProvides AField.label = false) ∧
    wrapperGetattr (fun _ _ => (0 : Nat)) (fun _ _ => (1 : Nat))
      (fun _ : Nat => Except.error (α := Nat) 9) (.lazy 3) AField.label =
      (.lazy 3, .error 9, 1) :=
  ⟨⟨rfl, rfl⟩,
    escalation_failure_keeps_lazy (fun _ _ => 0) (fun _ _ => 1)
      (fun _ : Nat => Except.error (α := Nat) 9) 3 9 AField.label rfl rfl⟩

/-! ## Fetch throttling (Metallum.make_throttle_hook) -/

/-- The minimum inter-request interval in seconds (`REQUEST_TIMEOUT = 1.0`). -/
def REQUEST_TIMEOUT : ℚ := 1

/-- The response hook returned by the throttle-hook factory: the sleep calls
it issues while handling one response — none when the response was served
from the cache, one of `REQUEST_TIMEOUT` seconds otherwise. -/
def throttleHookSleeps (from_cache : Bool) : List ℚ :=
  if from_cache then [] else [REQUEST_TIMEOUT]

/-- One fetch as the throttled session observes it: whether the response was
served from the cache, and the (nonnegative) duration of the transport call
itself. -/
structure FetchEvent where
  from_cache : Bool
  service : ℚ

/-- Start times of back-to-back fetch calls in the single-threaded session:
each call starts once the previous one — its transport time plus the sleeps
of its response hook — has completed. -/
def fetchStarts : ℚ → List FetchEvent → List ℚ
  | _, [] => []
  | t, e :: es => t :: fetchStarts (t + e.service + (throttleHookSleeps e.from_cache).sum) es

theorem fetchStarts_length : ∀ (es : List FetchEvent) (t : ℚ),
    (fetchStarts t es).length = es.length := by
  intro es
  induction es with
  | nil => intro t; rfl
  | cons e es ih => intro t; simp [fetchStarts, ih]

theorem getD_mem {α : Type} (d : α) :
    ∀ (l : List α) (i : Nat), i < l.length → l.getD i d ∈ l := by
  intro l
  induction l with
  | nil => intro i hi; simp at hi
  | cons a l ih =>
    intro i hi
    cases i with
    | zero => exact List.mem_cons_self _ _
    | succ i =>
      rw [List.getD_cons_succ]
      exact List.mem_cons_of_mem _ (ih i (by simpa using hi))

theorem fetchStarts_getD_succ :
    ∀ (es : List FetchEvent) (t : ℚ) (i : Nat), i + 1 < es.length →
      (fetchStarts t es).getD (i + 1) 0 =
        (fetchStarts t es).getD i 0 + (es.getD i ⟨true, 0⟩).service +
          (throttleHookSleeps (es.getD i ⟨true, 0⟩).from_cache).sum := by
  intro es
  induction es with
  | nil => intro t i hi; simp at hi
  | cons e es ih =>
    intro t i hi
    cases i with
    | zero =>
      have hlen : 0 < es.length := by simpa using hi
      obtain ⟨e', es', rfl⟩ := List.exists_cons_of_ne_nil (List.length_pos.mp hlen)
      rfl
    | succ i =>
      have hi' : i + 1 < es.length := by simpa using hi
      show (fetchStarts _ es).getD (i + 1) 0 = (fetchStarts _ es).getD i 0 + _ + _
      rw [ih _ i hi']
      rfl

/-- C7: the response hook sleeps for the minimum interval exactly when the
response was not served from the cache — a cached response incurs no sleep,
so consecutive calls after it are separated only by its own transport time —
and after any cache-miss fetch the next call starts at least the configured
minimum interval later. -/
theorem throttle_hook_correct (t : ℚ) (es : List FetchEvent) (i : Nat)
    (hserv : ∀ e ∈ es, 0 ≤ e.service) (hi : i + 1 < es.length) :
    throttleHookSleeps true = [] ∧
    throttleHookSleeps false = [REQUEST_TIMEOUT] ∧
    ((es.getD i ⟨true, 0⟩).from_cache = false →
      (fetchStarts t es).getD i 0 + REQUEST_TIMEOUT ≤
        (fetchStarts t es).getD (i + 1) 0) ∧
    ((es.getD i ⟨true, 0⟩).from_cache = true →
      (fetchStarts t es).getD (i + 1) 0 =
        (fetchStarts t es).getD i 0 + (es.getD i ⟨true, 0⟩).service) := by
  have hstep := fetchStarts_getD_succ es t i hi
  have hmem : es.getD i ⟨true, 0⟩ ∈ es := getD_mem _ es i (by omega)
  have hs : 0 ≤ (es.getD i ⟨true, 0⟩).service := hserv _ hmem
  refine ⟨rfl, rfl, ?_, ?_⟩
  · intro hc
    rw [hstep, hc]
    show _ + REQUEST_TIMEOUT ≤ _ + _ + (REQUEST_TIMEOUT + 0)
    linarith
  · intro hc
    rw [hstep, hc]
    simp [throttleHookSleeps]

theorem throttle_hook_correct_witness :
    ((∀ e ∈ [FetchEvent.mk false 0, FetchEvent.mk true 1], 0 ≤ e.service) ∧
      0 + 1 < ([FetchEvent.mk false 0, FetchEvent.mk true 1] : List FetchEvent).length) ∧
    (throttleHookSleeps true = [] ∧
      throttleHookSleeps false = [REQUEST_TIMEOUT] ∧
      (([FetchEvent.mk false 0, FetchEvent.mk true 1].getD 0 ⟨true, 0⟩).from_cache = false →
        (fetchStarts 0 [FetchEvent.mk false 0, FetchEvent.mk true 1]).getD 0 0 +
            REQUEST_TIMEOUT ≤
          (fetchStarts 0 [FetchEvent.mk false 0, FetchEvent.mk true 1]).getD (0 + 1) 0) ∧
      (([FetchEvent.mk false 0, FetchEvent.mk true 1].getD 0 ⟨true, 0⟩).from_cache = true →
        (fetchStarts 0 [FetchEvent.mk false 0, FetchEvent.mk true 1]).getD (0 + 1) 0 =
          (fetchStarts 0 [FetchEvent.mk false 0, FetchEvent.mk true 1]).getD 0 0 +
            ([FetchEvent.mk false 0, FetchEvent.mk true 1].getD 0 ⟨true, 0⟩).service)) :=
  ⟨⟨by decide, by decide⟩,
    throttle_hook_correct 0 [FetchEvent.mk false 0, FetchEvent.mk true 1] 0
      (by decide) (by decide)⟩

/-! ## Date parsing and the UTC offset (offset_time, Album.date, Band.added) -/

/-- A Python `datetime.datetime` value. -/
structure PyDateTime where
  year : Nat
  month : Nat
  day : Nat
  hour : Nat
  minute : Nat
  second : Nat
deriving DecidableEq

/-- Constant `UTC_OFFSET = 4`: the fixed offset, in hours, from the server
time to UTC. -/
def UTC_OFFSET : Nat := 4

def isLeap (y : Nat) : Bool := (y % 4 == 0 && y % 100 != 0) || y % 400 == 0

def daysInMonth (y m : Nat) : Nat :=
  if m = 2 then (if isLeap y then 29 else 28)
  else if m = 4 || m = 6 || m = 9 || m = 11 then 30
  else 31

/-- Function `offset_time`: `t + datetime.timedelta(hours=UTC_OFFSET)`, with calendar
rollover (the offset is four hours, so at most one day boundary is crossed). -/
def offset_time (t : PyDateTime) : PyDateTime :=
  let h := t.hour + UTC_OFFSET
  if h < 24 then ⟨t.year, t.month, t.day, h, t.minute, t.second⟩
  else
    let h2 := h - 24
    if t.day + 1 ≤ daysInMonth t.year t.month then
      ⟨t.year, t.month, t.day + 1, h2, t.minute, t.second⟩
    else if t.month = 12 then ⟨t.year + 1, 1, 1, h2, t.minute, t.second⟩
    else ⟨t.year, t.month + 1, 1, h2, t.minute, t.second⟩

def monthNames : List (List Char) :=
  [("January").data, ("February").data, ("March").data, ("April").data,
    ("May").data, ("June").data, ("July").data, ("August").data,
    ("September").data, ("October").data, ("November").data, ("December").data]

def monthNumberGo : Nat → List (List Char) → List Char → Option Nat
  | _, [], _ => none
  | i, m :: ms, s => if s = m then some i else monthNumberGo (i + 1) ms s

/-- The month number of a full English month name. -/
def monthNumber (s : List Char) : Option Nat := monthNumberGo 1 monthNames s

/-- Parse `datetime.datetime.strptime(s, "%B %Y")`: full month name and year; the
day defaults to 1. -/
def strptimeMonthYear (s : List Char) : Option PyDateTime :=
  match pySplit ' ' s with
  | [m, y] => do
    let mo ← monthNumber m
    let yr ← pyInt y
    some ⟨yr, mo, 1, 0, 0, 0⟩
  | _ => none

/-- Modelled from the spec: `dateutil.parser.parse`, the external parser the
fully qualified branch delegates to (the library is not part of this
repository); modelled on the fully qualified date shape `"Month D, YYYY"`
that the release-date page text carries. -/
def dateutilParse (s : List Char) : Option PyDateTime :=
  match pySplit ' ' s with
  | [m, dc, y] => do
    let mo ← monthNumber m
    if dc.getLast? = some ',' then do
      let d ← pyInt dc.dropLast
      let yr ← pyInt y
      some ⟨yr, mo, d, 0, 0, 0⟩
    else none
  | _ => none

/-- Parse `datetime.datetime.strptime(s, "%Y-%m-%d %H:%M:%S")`, the audit-trail
timestamp shape used by `added` and `modified`. -/
def strptimeYmdHms (s : List Char) : Option PyDateTime :=
  match pySplit ' ' s with
  | [datePart, timePart] =>
    match pySplit '-' datePart, pySplit ':' timePart with
    | [ys, ms, ds], [hs, mins, secs] => do
      let y ← pyInt ys
      let mo ← pyInt ms
      let d ← pyInt ds
      let h ← pyInt hs
      let mi ← pyInt mins
      let se ← pyInt secs
      if 1 ≤ mo ∧ mo ≤ 12 ∧ 1 ≤ d ∧ d ≤ daysInMonth y mo ∧ h < 24 ∧ mi < 60 ∧ se < 60 then
        some ⟨y, mo, d, h, mi, se⟩
      else none
    | _, _ => none
  | _ => none

/-- The branch condition of `Album.date`: `len(s) > 4 and ',' not in s`. -/
def selectsMonthYear (s : List Char) : Bool :=
  decide (s.length > 4) && !(s.contains ',')

/-- Accessor `Album.date` over the extracted release-date text: the Month-Year branch
or the fully qualified branch, with no offset applied to either result. -/
def album_date (s : List Char) : Option PyDateTime :=
  if selectsMonthYear s then strptimeMonthYear s else dateutilParse s

/-- Accessor `Band.added` over the extracted audit-trail text:
`offset_time(datetime.datetime.strptime(s, "%Y-%m-%d %H:%M:%S"))`, with the
`ValueError` of a failed parse surfacing as `none`. -/
def band_added (s : List Char) : Option PyDateTime :=
  (strptimeYmdHms s).map offset_time

/-- C5, counterexample: the text `"1986"` contains no day-separating comma
yet does not select the Month-Year shape (the branch also requires length
greater than 4); and the album release date is returned exactly as parsed —
`"March 3, 1986"` yields midnight March 3, not the offset-shifted instant —
so not every parsed timestamp is shifted to UTC before being returned. -/
theorem album_date_claim_counterexample :
    (("1986").data.contains ',' = false ∧ selectsMonthYear ("1986").data = false) ∧
    (album_date ("March 3, 1986").data = some ⟨1986, 3, 3, 0, 0, 0⟩ ∧
      offset_time ⟨1986, 3, 3, 0, 0, 0⟩ ≠ ⟨1986, 3, 3, 0, 0, 0⟩) := by decide

/-- C5 (amended): the date parser selects the Month-Year shape exactly when
the text is longer than four characters and contains no day-separating
comma, and otherwise uses the fully qualified shape; audit-trail timestamps
(`Band.added`) are shifted from server time to UTC by the fixed offset
before being returned; the album release date is returned exactly as parsed,
without the offset. -/
theorem date_parsing_amended (s sb : List Char) (d : PyDateTime)
    (hb : strptimeYmdHms sb = some d) :
    (selectsMonthYear s = true ↔ (s.length > 4 ∧ s.contains ',' = false)) ∧
    (selectsMonthYear s = true → album_date s = strptimeMonthYear s) ∧
    (selectsMonthYear s = false → album_date s = dateutilParse s) ∧
    band_added sb = some (offset_time d) ∧
    album_date ("March 3, 1986").data = some ⟨1986, 3, 3, 0, 0, 0⟩ ∧
    band_added ("2002-07-21 02:45:08").data = some ⟨2002, 7, 21, 6, 45, 8⟩ := by
  refine ⟨?_, ?_, ?_, ?_, by decide, by decide⟩
  · simp [selectsMonthYear]
  · intro h
    simp [album_date, h]
  · intro h
    simp [album_date, h]
  · simp [band_added, hb]

theorem date_parsing_amended_witness :
    strptimeYmdHms ("2002-07-21 02:45:08").data = some ⟨2002, 7, 21, 2, 45, 8⟩ ∧
    ((selectsMonthYear ("May 1986").data = true ↔
        (("May 1986").data.length > 4 ∧ ("May 1986").data.contains ',' = false)) ∧
      (selectsMonthYear ("May 1986").data = true →
        album_date ("May 1986").data = strptimeMonthYear ("May 1986").data) ∧
      (selectsMonthYear ("May 1986").data = false →
        album_date ("May 1986").data = dateutilParse ("May 1986").data) ∧
      band_added ("2002-07-21 02:45:08").data =
        some (offset_time ⟨2002, 7, 21, 2, 45, 8⟩) ∧
      album_date ("March 3, 1986").data = some ⟨1986, 3, 3, 0, 0, 0⟩ ∧
      band_added ("2002-07-21 02:45:08").data = some ⟨2002, 7, 21, 6, 45, 8⟩) :=
  ⟨by decide,
    date_parsing_amended ("May 1986").data ("2002-07-21 02:45:08").data
      ⟨2002, 7, 21, 2, 45, 8⟩ (by decide)⟩

/-! ## Split-release track titles (Track.title, Track.band) -/

/-- Python `str.startswith`: `startsWithL l b` is true when `b` is an
initial segment of `l`. -/
def startsWithL : List Char → List Char → Bool
  | _, [] => true
  | [], _ :: _ => false
  | c :: l, b :: m => c = b && startsWithL l m

/-- The band-selection loop of `Track.band` on a Split release: iterate over
the bands of the release in order and `break` at the first whose name the raw
title starts with; when none matches, the Python loop variable is left bound
to the last band; an empty band list leaves it unbound (`none`). -/
def bandLoop (full : List Char) : List (List Char) → Option (List Char)
  | [] => none
  | [b] => some b
  | b :: rest => if startsWithL full b then some b else bandLoop full rest

/-- The album type string `AlbumTypes.SPLIT`. -/
def SPLIT : List Char := ("Split").data

/-- Accessor `Track.band`: the loop above for a Split release, else the first
band otherwise. -/
def track_band (albumType : List Char) (bands : List (List Char))
    (full : List Char) : Option (List Char) :=
  if albumType = SPLIT then bandLoop full bands else bands.head?

/-- Accessor `Track.title`: for a Split release, the raw title with its first
`len(band.name) + 3` characters removed (`title[len(self.band.name) + 3:]`);
otherwise the raw title itself. -/
def track_title (albumType : List Char) (bands : List (List Char))
    (full : List Char) : Option (List Char) :=
  if albumType = SPLIT then
    (track_band albumType bands full).map fun b => full.drop (b.length + 3)
  else some full

theorem startsWithL_append : ∀ b r : List Char, startsWithL (b ++ r) b = true := by
  intro b
  induction b with
  | nil => intro r; cases r <;> rfl
  | cons c b ih =>
    intro r
    show (c = c && startsWithL (b ++ r) b) = true
    simp [ih]

/-- The loop stops at the first band whose name is a prefix of the title. -/
theorem bandLoop_first_match (full b : List Char) :
    ∀ (pre post : List (List Char)), (∀ x ∈ pre, startsWithL full x = false) →
      startsWithL full b = true → bandLoop full (pre ++ b :: post) = some b := by
  intro pre
  induction pre with
  | nil =>
    intro post _ hb
    cases post with
    | nil => rfl
    | cons p ps =>
      show bandLoop full (b :: p :: ps) = some b
      rw [bandLoop, if_pos hb]
      simp
  | cons x pre ih =>
    intro post hpre hb
    have hx : startsWithL full x = false := hpre x (List.mem_cons_self _ _)
    have hrest : ∀ y ∈ pre, startsWithL full y = false :=
      fun y hy => hpre y (List.mem_cons_of_mem _ hy)
    obtain ⟨z, zs, hz⟩ : ∃ z zs, pre ++ b :: post = z :: zs :=
      List.exists_cons_of_ne_nil (by simp)
    show bandLoop full (x :: (pre ++ b :: post)) = some b
    rw [hz, bandLoop, if_neg (by simp [hx]), ← hz]
    exact ih post hrest hb
    simp

/-- C6, counterexample: with band order `["A", "AB"]` and raw title
`"AB - x"`, the raw title begins with band `"AB"` plus `" - "`, but the
accessor selects band `"A"` — the first band, in order, whose name is a
prefix — and returns `" x"`, which is not the raw title with the selected
band-name-plus-separator removed as a prefix (`"A - " ++ " x"` is not the
raw title): the removed text is not that band-name-plus-`" - "` prefix. -/
theorem split_title_claim_counterexample :
    startsWithL ("AB - x").data (("AB").data ++ (" - ").data) = true ∧
    bandLoop ("AB - x").data [("A").data, ("AB").data] = some ("A").data ∧
    track_title SPLIT [("A").data, ("AB").data] ("AB - x").data =
      some (" x").data ∧
    ("A").data ++ (" - ").data ++ (" x").data ≠ ("AB - x").data := by decide

/-- C6 (amended): for a Split-release track, when the band the accessor
selects — the first band, in release-band order, whose name is a prefix of
the raw title — has its full name-plus-`" - "` present as the prefix of the
raw title, the title accessor returns exactly the remainder after that
prefix; in particular with band order `["Lunar Aurora", "Paysage dHiver"]`
and raw title `"Lunar Aurora - A haudiga Fluag"` it returns
`"A haudiga Fluag"`. -/
theorem split_title_amended (full b t : List Char) (pre post : List (List Char))
    (hpre : ∀ x ∈ pre, startsWithL full x = false)
    (ht : full = b ++ (" - ").data ++ t) :
    bandLoop full (pre ++ b :: post) = some b ∧
    track_band SPLIT (pre ++ b :: post) full = some b ∧
    track_title SPLIT (pre ++ b :: post) full = some t ∧
    track_title SPLIT [("Lunar Aurora").data, ("Paysage dHiver").data]
      ("Lunar Aurora - A haudiga Fluag").data =
      some ("A haudiga Fluag").data := by
  have hb : startsWithL full b = true := by
    rw [ht, List.append_assoc]
    exact startsWithL_append b _
  have hloop := bandLoop_first_match full b pre post hpre hb
  have hlen : (b ++ (" - ").data).length = b.length + 3 := by
    rw [List.length_append]
    rfl
  have hdrop : full.drop (b.length + 3) = t := by
    rw [ht, ← hlen, List.drop_left]
  refine ⟨hloop, ?_, ?_, by decide⟩
  · unfold track_band
    rw [if_pos rfl, hloop]
  · unfold track_title track_band
    rw [if_pos rfl, if_pos rfl, hloop]
    show some (full.drop (b.length + 3)) = some t
    rw [hdrop]

theorem split_title_amended_witness :
    ((∀ x ∈ ([] : List (List Char)), startsWithL ("Lunar Aurora - A haudiga Fluag").data x = false) ∧
      ("Lunar Aurora - A haudiga Fluag").data =
        ("Lunar Aurora").data ++ (" - ").data ++ ("A haudiga Fluag").data) ∧
    (bandLoop ("Lunar Aurora - A haudiga Fluag").data
        ([] ++ ("Lunar Aurora").data :: [("Paysage dHiver").data]) =
        some ("Lunar Aurora").data ∧
      track_band SPLIT ([] ++ ("Lunar Aurora").data :: [("Paysage dHiver").data])
        ("Lunar Aurora - A haudiga Fluag").data = some ("Lunar Aurora").data ∧
      track_title SPLIT ([] ++ ("Lunar Aurora").data :: [("Paysage dHiver").data])
        ("Lunar Aurora - A haudiga Fluag").data = some ("A haudiga Fluag").data ∧
      track_title SPLIT [("Lunar Aurora").data, ("Paysage dHiver").data]
        ("Lunar Aurora - A haudiga Fluag").data = some ("A haudiga Fluag").data) :=
  ⟨⟨by decide, by decide⟩,
    split_title_amended ("Lunar Aurora - A haudiga Fluag").data ("Lunar Aurora").data
      ("A haudiga Fluag").data [] [("Paysage dHiver").data] (by decide) (by decide)⟩
